import Mathlib

/-!
# Verification of the greedy set-cover tool (`cover.py`)

Shallow embedding of the program: a Python `dict` is modelled as an
insertion-ordered association list with (for dict-representable inputs)
pairwise-distinct keys; a Python `set` of hashable comparable elements is
modelled as a `Finset Nat`; code that raises an exception is modelled with
`Except String`, the string naming the Python exception.  The `while` loop of
`main` is modelled by a fuel-indexed recursion; `main_solve` supplies
`universe.card` fuel, which is proved sufficient for every valid input, and
exhausted fuel is reported as the distinguished error `"nontermination"`.
-/

namespace SetCover

/-- A Python `dict` of named subsets: insertion-ordered association list. -/
abbrev SubsetMap := List (String × Finset Nat)

/-- A solution under construction: insertion-ordered map name ↦ sorted list. -/
abbrev Solution := List (String × List Nat)

/-- The keys of the association list are pairwise distinct, as they are for
any Python `dict`. -/
abbrev KeysNodup (d : SubsetMap) : Prop := (d.map Prod.fst).Nodup

/-- A valid engine input: a non-empty mapping with distinct keys (values are
`Finset`s, hence duplicate-free by construction). -/
abbrev ValidInput (d : SubsetMap) : Prop := d ≠ [] ∧ KeysNodup d

/-- Union of all values of the mapping (specification-side helper used to
state properties; `union` below is the source's function). -/
def unionVals (d : SubsetMap) : Finset Nat :=
  d.foldl (fun acc kv => acc ∪ kv.2) ∅

/-- Union of all element sequences of a solution. -/
def solUnion (sol : Solution) : Finset Nat :=
  sol.foldl (fun acc kv => acc ∪ kv.2.toFinset) ∅

/-- Loop of the embedding of Python `sorted` on a set of integers: repeatedly
remove the minimum.  The fuel argument makes the recursion structural, so the
definition reduces inside the kernel; `sortedList` supplies `s.card`. -/
def sortedListAux : Nat → Finset Nat → List Nat
  | 0, _ => []
  | n + 1, s =>
    if h : s.Nonempty then s.min' h :: sortedListAux n (s.erase (s.min' h))
    else []

/-- Embeds Python `sorted(opt_val)` (cover.py line 135): the elements of the
set listed in ascending order. -/
def sortedList (s : Finset Nat) : List Nat :=
  sortedListAux s.card s

/-- Embeds `union` (cover.py lines 58–62): `set_list[0]` raises `IndexError`
on an empty dict, otherwise the union of the first value with the rest. -/
def union (subsets : SubsetMap) : Except String (Finset Nat) :=
  match subsets.map Prod.snd with
  | [] => .error "IndexError: list index out of range"
  | first :: rest => .ok (rest.foldl (fun a b => a ∪ b) first)

/-- Decidable equality for `Except`, so that witnesses can evaluate runs of
the embedded program. -/
instance {ε α : Type} [DecidableEq ε] [DecidableEq α] :
    DecidableEq (Except ε α) := fun a b =>
  match a, b with
  | .ok x, .ok y =>
    if h : x = y then .isTrue (by rw [h])
    else .isFalse (fun c => h (Except.ok.inj c))
  | .error x, .error y =>
    if h : x = y then .isTrue (by rw [h])
    else .isFalse (fun c => h (Except.error.inj c))
  | .ok _, .error _ => .isFalse (fun c => Except.noConfusion c)
  | .error _, .ok _ => .isFalse (fun c => Except.noConfusion c)

/-- Loop body of `largest_valued_key` (cover.py lines 65–75): track the
running largest value size (`biggest_size`, starting at `-1`) and its key,
replacing only on strictly greater size. -/
def lvk_aux : List (String × Finset Nat) → Int → Option String → Option String
  | [], _, biggest_key => biggest_key
  | kv :: rest, biggest_size, biggest_key =>
    if (kv.2.card : Int) > biggest_size then
      lvk_aux rest (kv.2.card : Int) (some kv.1)
    else
      lvk_aux rest biggest_size biggest_key

/-- Embeds `largest_valued_key` (cover.py lines 65–75).  The final
`assert isinstance(biggest_key, str)` fails exactly when the dict is empty:
`none` models that `AssertionError`. -/
def largest_valued_key (dic : List (String × Finset Nat)) : Option String :=
  lvk_aux dic (-1) none

/-- Loop body of `biggest_intersection` (cover.py lines 85–95): state is
`(opt_size, opt, opt_key)`.  A strictly larger intersection resets `opt` to
the singleton and captures the key; a tie appends to `opt`. -/
def bi_aux (uni : Finset Nat) :
    List (String × Finset Nat) → Int → List (String × Finset Nat) → String →
      Int × List (String × Finset Nat) × String
  | [], opt_size, opt, opt_key => (opt_size, opt, opt_key)
  | kv :: rest, opt_size, opt, opt_key =>
    if ((uni ∩ kv.2).card : Int) > opt_size then
      bi_aux uni rest ((uni ∩ kv.2).card : Int) [kv] kv.1
    else if ((uni ∩ kv.2).card : Int) = opt_size then
      bi_aux uni rest opt_size (opt ++ [kv]) opt_key
    else
      bi_aux uni rest opt_size opt opt_key

/-- Embeds `biggest_intersection` (cover.py lines 78–96): scan all subsets,
then return `largest_valued_key opt` when `large`, else the captured
`opt_key` (initialized to `str()`, the empty string). -/
def biggest_intersection (uni : Finset Nat) (subsets : SubsetMap)
    (large : Bool) : Except String String :=
  if large then
    match largest_valued_key (bi_aux uni subsets (-1) [] "").2.1 with
    | some k => .ok k
    | none => .error "AssertionError"
  else .ok (bi_aux uni subsets (-1) [] "").2.2

/-- Embeds `subset_dict.pop(opt_key)` (cover.py line 131): return the value
stored at the key and the dict without that entry; `KeyError` if absent. -/
def dictPop (d : SubsetMap) (k : String) :
    Except String (Finset Nat × SubsetMap) :=
  match d.find? (fun kv => kv.1 == k) with
  | none => .error "KeyError"
  | some kv => .ok (kv.2, d.eraseP (fun kv => kv.1 == k))

/-- Embeds the `while len(universe) != 0` loop of `main` (cover.py lines
127–135), with explicit fuel standing for the number of iterations the
Python loop is allowed; exhausting it models non-termination. -/
def greedyLoop (large : Bool) :
    Nat → Finset Nat → SubsetMap → Solution → Except String Solution
  | 0, uni, _, solution =>
    if uni = ∅ then .ok solution else .error "nontermination"
  | fuel + 1, uni, subset_dict, solution =>
    if uni = ∅ then .ok solution
    else
      match biggest_intersection uni subset_dict large with
      | .error e => .error e
      | .ok opt_key =>
        match dictPop subset_dict opt_key with
        | .error e => .error e
        | .ok (opt_val, rest) =>
          greedyLoop large fuel (uni \ opt_val) rest
            (solution ++ [(opt_key, sortedList opt_val)])

/-- Embeds the solving part of `main` (cover.py lines 124–135): compute the
universe, then run the greedy loop starting from the empty solution.  The
fuel `uni.card` is proved sufficient for every valid input. -/
def main_solve (subset_dict : SubsetMap) (large : Bool) :
    Except String Solution :=
  match union subset_dict with
  | .error e => .error e
  | .ok uni => greedyLoop large uni.card uni subset_dict []

/-! ## Runs of the greedy loop

`SelectionRun large uni d sol dF solF` records one complete execution of the
`while` loop from state (universe `uni`, remaining dict `d`, accumulated
solution `sol`) to the final remaining dict `dF` and final solution `solF`.
Each `step` requires a non-empty universe and records that the selected
subset meets the then-remaining universe; `done` applies exactly when the
universe is empty, so a run contains no selection step once the universe is
exhausted. -/

inductive SelectionRun (large : Bool) :
    Finset Nat → SubsetMap → Solution → SubsetMap → Solution → Prop
  | done (d : SubsetMap) (sol : Solution) : SelectionRun large ∅ d sol d sol
  | step (uni : Finset Nat) (d : SubsetMap) (sol : Solution) (k : String)
      (v : Finset Nat) (rest : SubsetMap) (dF : SubsetMap) (solF : Solution) :
      uni ≠ ∅ →
      biggest_intersection uni d large = .ok k →
      dictPop d k = .ok (v, rest) →
      (uni ∩ v).Nonempty →
      SelectionRun large (uni \ v) rest (sol ++ [(k, sortedList v)]) dF solF →
      SelectionRun large uni d sol dF solF

/-- The worked example of the specification: `{"A":[1,2,3],"B":[3,4],"C":[5]}`. -/
def exInput : SubsetMap := [("A", {1, 2, 3}), ("B", {3, 4}), ("C", {5})]

/-- The expected solution for `exInput` under either flag. -/
def exSolution : Solution := [("A", [1, 2, 3]), ("B", [3, 4]), ("C", [5])]

/-- Two subsets with equal intersection against `{1, 2}` and equal size. -/
def exPair : SubsetMap := [("A", {1}), ("B", {2})]

/-- A valid input containing an empty subset. -/
def exWithEmpty : SubsetMap := [("A", (∅ : Finset Nat)), ("B", {1, 2})]

/-! ## The input validator

`check_input` (cover.py lines 38–55) receives whatever `json.load` produced.
The possible shapes are modelled by `JTop`: a JSON object (a dict whose
values are modelled by `JValue`: either a list of elements or some non-list
value), a JSON array, or a scalar on which Python `len` is undefined. -/

/-- A value of the parsed top-level JSON object: a list of elements, or any
non-list JSON value. -/
inductive JValue : Type
  | jlist (xs : List Nat)
  | jother
  deriving DecidableEq

/-- The parsed top-level JSON document. -/
inductive JTop : Type
  | jdict (entries : List (String × JValue))
  | jarr (elems : List Nat)
  | jscalar

/-- Embeds the `for key, value in subsets.items()` loop of `check_input`
(cover.py lines 47–53): reject a non-list value, reject a list whose length
shrinks under `set`, otherwise store the converted set and continue. -/
def check_entries :
    List (String × JValue) → Except String (List (String × Finset Nat))
  | [] => .ok []
  | (_, JValue.jother) :: _ => .error "Secondary JSON type must be list."
  | (key, JValue.jlist xs) :: rest =>
    if xs.length = xs.toFinset.card then
      match check_entries rest with
      | .ok r => .ok ((key, xs.toFinset) :: r)
      | .error e => .error e
    else .error ("There is a duplicate in " ++ key ++ ".")

/-- Embeds `check_input` (cover.py lines 38–55).  Mirrors the source's check
order: `len(subsets) == 0` first (Python `len` works on dicts and lists but
raises `TypeError` on scalars), then the `isinstance(subsets, dict)` check,
then the per-entry loop. -/
def check_input : JTop → Except String (List (String × Finset Nat))
  | JTop.jdict entries =>
    if entries.length = 0 then .error "Input is empty."
    else check_entries entries
  | JTop.jarr elems =>
    if elems.length = 0 then .error "Input is empty."
    else .error "Parent JSON type must be dict."
  | JTop.jscalar => .error "TypeError: object of type int has no len()"

/-- Modelled from the spec words of claim C2 only (not from the source), for
comparison against `biggest_intersection`: among the names tied at the
maximal intersection size, take those of maximal original subset size, and
of those the one encountered *last* during the scan. -/
def specC2winner (uni : Finset Nat) (subsets : SubsetMap) : Option String :=
  let m := subsets.foldl (fun b kv => max b ((uni ∩ kv.2).card : Int)) (-1)
  let cands := subsets.filter (fun kv => ((uni ∩ kv.2).card : Int) = m)
  let c := cands.foldl (fun b kv => max b (kv.2.card : Int)) (-1)
  ((cands.filter (fun kv => (kv.2.card : Int) = c)).getLast?).map Prod.fst

/-! ## Properties of `sortedList` -/

theorem sortedListAux_mem : ∀ (n : Nat) (s : Finset Nat) (x : Nat),
    x ∈ sortedListAux n s → x ∈ s := by
  intro n
  induction n with
  | zero => intro s x hx; simp [sortedListAux] at hx
  | succ n ih =>
    intro s x hx
    rw [sortedListAux] at hx
    split at hx
    · rcases List.mem_cons.mp hx with h | h
      · subst h; exact Finset.min'_mem _ _
      · exact Finset.mem_of_mem_erase (ih _ _ h)
    · simp at hx

theorem sortedListAux_toFinset : ∀ (n : Nat) (s : Finset Nat),
    s.card ≤ n → (sortedListAux n s).toFinset = s := by
  intro n
  induction n with
  | zero =>
    intro s hs
    rw [Nat.le_zero, Finset.card_eq_zero] at hs
    subst hs; simp [sortedListAux]
  | succ n ih =>
    intro s hs
    rw [sortedListAux]
    split
    · next h =>
      have hmem := Finset.min'_mem s h
      have hcard : (s.erase (s.min' h)).card ≤ n := by
        rw [Finset.card_erase_of_mem hmem]
        omega
      rw [List.toFinset_cons, ih _ hcard, Finset.insert_erase hmem]
    · next h =>
      rw [Finset.not_nonempty_iff_eq_empty] at h
      subst h; simp

theorem sortedListAux_sorted : ∀ (n : Nat) (s : Finset Nat),
    List.Sorted (· < ·) (sortedListAux n s) := by
  intro n
  induction n with
  | zero => intro s; simp [sortedListAux]
  | succ n ih =>
    intro s
    rw [sortedListAux]
    split
    · next h =>
      refine List.sorted_cons.mpr ⟨?_, ih _⟩
      intro b hb
      have hbe := sortedListAux_mem _ _ _ hb
      have hbs := Finset.mem_of_mem_erase hbe
      have hne := Finset.ne_of_mem_erase hbe
      exact lt_of_le_of_ne (Finset.min'_le s b hbs) (Ne.symm hne)
    · exact List.sorted_nil

theorem sortedList_toFinset (s : Finset Nat) : (sortedList s).toFinset = s :=
  sortedListAux_toFinset _ _ le_rfl

theorem sortedList_sorted (s : Finset Nat) :
    List.Sorted (· < ·) (sortedList s) :=
  sortedListAux_sorted _ _

theorem sortedList_sorted_le (s : Finset Nat) :
    List.Sorted (· ≤ ·) (sortedList s) :=
  (sortedList_sorted s).imp le_of_lt

theorem sortedList_nodup (s : Finset Nat) : (sortedList s).Nodup :=
  (sortedList_sorted s).nodup

/-! ## Properties of unions -/

theorem foldl_union_mem : ∀ (d : SubsetMap) (init : Finset Nat) (x : Nat),
    (x ∈ d.foldl (fun acc kv => acc ∪ kv.2) init ↔
      x ∈ init ∨ ∃ kv ∈ d, x ∈ kv.2) := by
  intro d
  induction d with
  | nil => intro init x; simp
  | cons a rest ih =>
    intro init x
    rw [List.foldl_cons, ih]
    simp only [Finset.mem_union, List.mem_cons]
    constructor
    · rintro (⟨h | h⟩ | ⟨kv, hkv, hx⟩)
      · exact .inl h
      · exact .inr ⟨a, .inl rfl, h⟩
      · exact .inr ⟨kv, .inr hkv, hx⟩
    · rintro (h | ⟨kv, hkv | hkv, hx⟩)
      · exact .inl (.inl h)
      · subst hkv; exact .inl (.inr hx)
      · exact .inr ⟨kv, hkv, hx⟩

theorem mem_unionVals {d : SubsetMap} {x : Nat} :
    x ∈ unionVals d ↔ ∃ kv ∈ d, x ∈ kv.2 := by
  rw [unionVals, foldl_union_mem]; simp

theorem foldl_solUnion_mem : ∀ (sol : Solution) (init : Finset Nat) (x : Nat),
    (x ∈ sol.foldl (fun acc kv => acc ∪ kv.2.toFinset) init ↔
      x ∈ init ∨ ∃ kv ∈ sol, x ∈ kv.2) := by
  intro sol
  induction sol with
  | nil => intro init x; simp
  | cons a rest ih =>
    intro init x
    rw [List.foldl_cons, ih]
    simp only [Finset.mem_union, List.mem_cons, List.mem_toFinset]
    constructor
    · rintro (⟨h | h⟩ | ⟨kv, hkv, hx⟩)
      · exact .inl h
      · exact .inr ⟨a, .inl rfl, h⟩
      · exact .inr ⟨kv, .inr hkv, hx⟩
    · rintro (h | ⟨kv, hkv | hkv, hx⟩)
      · exact .inl (.inl h)
      · subst hkv; exact .inl (.inr hx)
      · exact .inr ⟨kv, hkv, hx⟩

theorem mem_solUnion {sol : Solution} {x : Nat} :
    x ∈ solUnion sol ↔ ∃ kv ∈ sol, x ∈ kv.2 := by
  rw [solUnion, foldl_solUnion_mem]; simp

theorem solUnion_append (sol : Solution) (e : String × List Nat) :
    solUnion (sol ++ [e]) = solUnion sol ∪ e.2.toFinset := by
  simp [solUnion, List.foldl_append]

theorem union_ok {d : SubsetMap} (h : d ≠ []) :
    union d = .ok (unionVals d) := by
  match d with
  | [] => exact absurd rfl h
  | kv :: rest =>
    rw [union]
    simp only [List.map_cons]
    rw [List.foldl_map]
    rw [unionVals, List.foldl_cons, Finset.empty_union]

/-! ## First-maximum decompositions

Both selection loops of the source (`largest_valued_key` and the
`opt_size`/`opt_key` tracking in `biggest_intersection`) keep a running
maximum and replace it only on strictly greater values, so each returns the
first entry attaining the maximum.  The next lemma provides, for any
non-empty list, the decomposition around that first maximal entry. -/

theorem exists_firstMax {α : Type} (f : α → Int) :
    ∀ (l : List α), l ≠ [] →
      ∃ pre kv post, l = pre ++ kv :: post ∧
        (∀ x ∈ pre, f x < f kv) ∧ (∀ x ∈ post, f x ≤ f kv) := by
  intro l
  induction l with
  | nil => intro h; exact absurd rfl h
  | cons a t ih =>
    intro _
    match t, ih with
    | [], _ =>
      exact ⟨[], a, [], rfl, by simp, by simp⟩
    | b :: t', ih =>
      obtain ⟨pre', kv', post', hdec, hpre', hpost'⟩ := ih (by simp)
      by_cases hlt : f a < f kv'
      · refine ⟨a :: pre', kv', post', by rw [hdec, List.cons_append], ?_, hpost'⟩
        intro x hx
        rcases List.mem_cons.mp hx with h | h
        · subst h; exact hlt
        · exact hpre' x h
      · refine ⟨[], a, b :: t', rfl, by simp, ?_⟩
        push_neg at hlt
        intro x hx
        rw [hdec] at hx
        rcases List.mem_append.mp hx with h | h
        · exact le_trans (le_of_lt (hpre' x h)) hlt
        · rcases List.mem_cons.mp h with h | h
          · subst h; exact hlt
          · exact le_trans (hpost' x h) hlt

/-! ## Characterization of `largest_valued_key` -/

theorem lvk_aux_flat : ∀ (l : List (String × Finset Nat)) (bs : Int)
    (bk : Option String), (∀ x ∈ l, (x.2.card : Int) ≤ bs) →
    lvk_aux l bs bk = bk := by
  intro l
  induction l with
  | nil => intro bs bk _; rfl
  | cons a rest ih =>
    intro bs bk h
    rw [lvk_aux]
    rw [if_neg (by push_neg; exact h a (List.mem_cons_self a rest))]
    exact ih bs bk (fun x hx => h x (List.mem_cons_of_mem a hx))

theorem lvk_aux_first : ∀ (pre : List (String × Finset Nat)) (kv : String × Finset Nat)
    (post : List (String × Finset Nat)) (bs : Int) (bk : Option String),
    (∀ x ∈ pre, (x.2.card : Int) < (kv.2.card : Int)) →
    bs < (kv.2.card : Int) →
    (∀ x ∈ post, (x.2.card : Int) ≤ (kv.2.card : Int)) →
    lvk_aux (pre ++ kv :: post) bs bk = some kv.1 := by
  intro pre
  induction pre with
  | nil =>
    intro kv post bs bk _ hbs hpost
    rw [List.nil_append, lvk_aux, if_pos hbs]
    exact lvk_aux_flat post _ _ hpost
  | cons a pre' ih =>
    intro kv post bs bk hpre hbs hpost
    have ha : (a.2.card : Int) < (kv.2.card : Int) :=
      hpre a (List.mem_cons_self a pre')
    have hpre' : ∀ x ∈ pre', (x.2.card : Int) < (kv.2.card : Int) :=
      fun x hx => hpre x (List.mem_cons_of_mem a hx)
    rw [List.cons_append, lvk_aux]
    split
    · exact ih kv post _ _ hpre' ha hpost
    · exact ih kv post _ _ hpre' hbs hpost

theorem largest_valued_key_spec {dic : List (String × Finset Nat)}
    (h : dic ≠ []) :
    ∃ pre kv post, dic = pre ++ kv :: post ∧
      (∀ x ∈ pre, (x.2.card : Int) < (kv.2.card : Int)) ∧
      (∀ x ∈ post, (x.2.card : Int) ≤ (kv.2.card : Int)) ∧
      largest_valued_key dic = some kv.1 := by
  obtain ⟨pre, kv, post, hdec, hpre, hpost⟩ :=
    exists_firstMax (fun kv => (kv.2.card : Int)) dic h
  refine ⟨pre, kv, post, hdec, hpre, hpost, ?_⟩
  rw [largest_valued_key, hdec]
  exact lvk_aux_first pre kv post _ _ hpre (by omega) hpost

/-! ## Characterization of `biggest_intersection` -/

theorem bi_aux_flat (uni : Finset Nat) :
    ∀ (l : SubsetMap) (os : Int) (opt : SubsetMap) (k : String),
    (∀ x ∈ l, ((uni ∩ x.2).card : Int) ≤ os) →
    bi_aux uni l os opt k =
      (os, opt ++ l.filter (fun x => ((uni ∩ x.2).card : Int) = os), k) := by
  intro l
  induction l with
  | nil => intro os opt k _; simp [bi_aux]
  | cons a rest ih =>
    intro os opt k h
    have ha : ((uni ∩ a.2).card : Int) ≤ os := h a (List.mem_cons_self a rest)
    have hrest : ∀ x ∈ rest, ((uni ∩ x.2).card : Int) ≤ os :=
      fun x hx => h x (List.mem_cons_of_mem a hx)
    rw [bi_aux, if_neg (by omega)]
    by_cases heq : ((uni ∩ a.2).card : Int) = os
    · rw [if_pos heq, ih _ _ _ hrest]
      rw [List.filter_cons_of_pos (by simp [heq]), List.append_assoc,
        List.singleton_append]
    · rw [if_neg heq, ih _ _ _ hrest]
      rw [List.filter_cons_of_neg (by simp [heq])]

theorem bi_aux_first (uni : Finset Nat) :
    ∀ (pre : SubsetMap) (kv : String × Finset Nat) (post : SubsetMap)
      (os : Int) (opt : SubsetMap) (k : String),
    (∀ x ∈ pre, ((uni ∩ x.2).card : Int) < ((uni ∩ kv.2).card : Int)) →
    os < ((uni ∩ kv.2).card : Int) →
    (∀ x ∈ post, ((uni ∩ x.2).card : Int) ≤ ((uni ∩ kv.2).card : Int)) →
    (bi_aux uni (pre ++ kv :: post) os opt k).2.2 = kv.1 := by
  intro pre
  induction pre with
  | nil =>
    intro kv post os opt k _ hos hpost
    rw [List.nil_append, bi_aux, if_pos hos, bi_aux_flat uni post _ _ _ hpost]
  | cons a pre' ih =>
    intro kv post os opt k hpre hos hpost
    have ha : ((uni ∩ a.2).card : Int) < ((uni ∩ kv.2).card : Int) :=
      hpre a (List.mem_cons_self a pre')
    have hpre' : ∀ x ∈ pre', ((uni ∩ x.2).card : Int) < ((uni ∩ kv.2).card : Int) :=
      fun x hx => hpre x (List.mem_cons_of_mem a hx)
    rw [List.cons_append, bi_aux]
    split
    · exact ih kv post _ _ _ hpre' ha hpost
    · split
      · exact ih kv post _ _ _ hpre' hos hpost
      · exact ih kv post _ _ _ hpre' hos hpost

theorem bi_aux_opt (uni : Finset Nat) :
    ∀ (pre : SubsetMap) (kv : String × Finset Nat) (post : SubsetMap)
      (os : Int) (opt : SubsetMap) (k : String),
    (∀ x ∈ pre, ((uni ∩ x.2).card : Int) < ((uni ∩ kv.2).card : Int)) →
    os < ((uni ∩ kv.2).card : Int) →
    (∀ x ∈ post, ((uni ∩ x.2).card : Int) ≤ ((uni ∩ kv.2).card : Int)) →
    (bi_aux uni (pre ++ kv :: post) os opt k).2.1 =
      (pre ++ kv :: post).filter
        (fun x => ((uni ∩ x.2).card : Int) = ((uni ∩ kv.2).card : Int)) := by
  intro pre
  induction pre with
  | nil =>
    intro kv post os opt k _ hos hpost
    rw [List.nil_append, bi_aux, if_pos hos, bi_aux_flat uni post _ _ _ hpost]
    rw [List.filter_cons_of_pos (by simp), List.singleton_append]
  | cons a pre' ih =>
    intro kv post os opt k hpre hos hpost
    have ha : ((uni ∩ a.2).card : Int) < ((uni ∩ kv.2).card : Int) :=
      hpre a (List.mem_cons_self a pre')
    have hpre' : ∀ x ∈ pre', ((uni ∩ x.2).card : Int) < ((uni ∩ kv.2).card : Int) :=
      fun x hx => hpre x (List.mem_cons_of_mem a hx)
    rw [List.cons_append, List.filter_cons_of_neg (by simp; omega), bi_aux]
    split
    · exact ih kv post _ _ _ hpre' ha hpost
    · split
      · exact ih kv post _ _ _ hpre' hos hpost
      · exact ih kv post _ _ _ hpre' hos hpost

/-- The `large = false` selection: the winner is the first subset scanned
whose intersection with the universe is maximal; later ties never replace
it. -/
theorem bi_false_spec (uni : Finset Nat) {d : SubsetMap} (h : d ≠ []) :
    ∃ pre kv post, d = pre ++ kv :: post ∧
      (∀ x ∈ pre, ((uni ∩ x.2).card : Int) < ((uni ∩ kv.2).card : Int)) ∧
      (∀ x ∈ post, ((uni ∩ x.2).card : Int) ≤ ((uni ∩ kv.2).card : Int)) ∧
      biggest_intersection uni d false = .ok kv.1 := by
  obtain ⟨pre, kv, post, hdec, hpre, hpost⟩ :=
    exists_firstMax (fun kv => ((uni ∩ kv.2).card : Int)) d h
  refine ⟨pre, kv, post, hdec, hpre, hpost, ?_⟩
  rw [biggest_intersection]
  simp only [Bool.false_eq_true, if_false]
  rw [hdec, bi_aux_first uni pre kv post _ _ _ hpre (by omega) hpost]

/-- The `large = true` selection: among the subsets whose intersection with
the universe is maximal (`M`), the winner is the first one scanned whose
original cardinality is maximal among them. -/
theorem bi_true_spec (uni : Finset Nat) {d : SubsetMap} (h : d ≠ []) :
    ∃ M pre kv post,
      (∀ x ∈ d, ((uni ∩ x.2).card : Int) ≤ M) ∧
      (∃ x ∈ d, ((uni ∩ x.2).card : Int) = M) ∧
      d.filter (fun x => ((uni ∩ x.2).card : Int) = M) = pre ++ kv :: post ∧
      (∀ x ∈ pre, (x.2.card : Int) < (kv.2.card : Int)) ∧
      (∀ x ∈ post, (x.2.card : Int) ≤ (kv.2.card : Int)) ∧
      biggest_intersection uni d true = .ok kv.1 := by
  obtain ⟨pre0, kv0, post0, hdec0, hpre0, hpost0⟩ :=
    exists_firstMax (fun kv => ((uni ∩ kv.2).card : Int)) d h
  have hopt := bi_aux_opt uni pre0 kv0 post0 (-1) [] "" hpre0 (by omega) hpost0
  rw [← hdec0] at hopt
  have hkv0mem : kv0 ∈ d.filter
      (fun x => ((uni ∩ x.2).card : Int) = ((uni ∩ kv0.2).card : Int)) := by
    rw [List.mem_filter]
    exact ⟨by rw [hdec0]; exact List.mem_append_right _ (List.mem_cons_self _ _),
      by simp⟩
  obtain ⟨pre, kv, post, hdec, hpre, hpost, hlvk⟩ :=
    largest_valued_key_spec (List.ne_nil_of_mem hkv0mem)
  refine ⟨((uni ∩ kv0.2).card : Int), pre, kv, post, ?_, ?_, hdec, hpre, hpost, ?_⟩
  · intro x hx
    rw [hdec0] at hx
    rcases List.mem_append.mp hx with hx | hx
    · exact le_of_lt (hpre0 x hx)
    · rcases List.mem_cons.mp hx with hx | hx
      · rw [hx]
      · exact hpost0 x hx
  · exact ⟨kv0, by rw [hdec0]; exact List.mem_append_right _ (List.mem_cons_self _ _),
      rfl⟩
  · rw [biggest_intersection, if_pos rfl, hopt, hlvk]

/-! ## Properties of `dictPop` -/

theorem decomp_of_mem_nodup : ∀ {d : SubsetMap} {k : String} {v : Finset Nat},
    KeysNodup d → (k, v) ∈ d →
    ∃ pre post, d = pre ++ (k, v) :: post ∧
      (∀ x ∈ pre, x.1 ≠ k) ∧ (∀ x ∈ post, x.1 ≠ k) := by
  intro d
  induction d with
  | nil => intro k v _ hmem; simp at hmem
  | cons a rest ih =>
    intro k v hnd hmem
    have hnd' : KeysNodup rest := (List.nodup_cons.mp hnd).2
    have hka : a.1 ∉ rest.map Prod.fst := (List.nodup_cons.mp hnd).1
    rcases List.mem_cons.mp hmem with h | h
    · refine ⟨[], rest, by rw [← h, List.nil_append], by simp, ?_⟩
      intro x hx hxk
      rw [← h] at hka
      exact hka (List.mem_map.mpr ⟨x, hx, hxk⟩)
    · obtain ⟨pre, post, hdec, hpre, hpost⟩ := ih hnd' h
      have hak : a.1 ≠ k := by
        intro hak
        apply hka
        rw [hak, hdec]
        exact List.mem_map.mpr ⟨(k, v), List.mem_append_right _ (List.mem_cons_self _ _), rfl⟩
      exact ⟨a :: pre, post, by rw [hdec, List.cons_append],
        fun x hx => by
          rcases List.mem_cons.mp hx with h' | h'
          · rw [h']; exact hak
          · exact hpre x h',
        hpost⟩

theorem find?_of_decomp : ∀ (pre : SubsetMap) (k : String) (v : Finset Nat)
    (post : SubsetMap), (∀ x ∈ pre, x.1 ≠ k) →
    (pre ++ (k, v) :: post).find? (fun kv => kv.1 == k) = some (k, v) := by
  intro pre k v post hpre
  induction pre with
  | nil => simp [List.find?]
  | cons a pre' ih =>
    rw [List.cons_append, List.find?]
    have : (a.1 == k) = false :=
      beq_eq_false_iff_ne.mpr (hpre a (List.mem_cons_self a pre'))
    rw [this]
    exact ih fun x hx => hpre x (List.mem_cons_of_mem a hx)

theorem eraseP_of_decomp : ∀ (pre : SubsetMap) (k : String) (v : Finset Nat)
    (post : SubsetMap), (∀ x ∈ pre, x.1 ≠ k) →
    (pre ++ (k, v) :: post).eraseP (fun kv => kv.1 == k) = pre ++ post := by
  intro pre k v post hpre
  induction pre with
  | nil => simp [List.eraseP_cons]
  | cons a pre' ih =>
    rw [List.cons_append, List.eraseP_cons]
    have : (a.1 == k) = false :=
      beq_eq_false_iff_ne.mpr (hpre a (List.mem_cons_self a pre'))
    rw [this]
    simp only [cond_false]
    rw [ih fun x hx => hpre x (List.mem_cons_of_mem a hx), List.cons_append]

/-- `subset_dict.pop(opt_key)` on a key present in a duplicate-free dict:
returns the stored value and removes exactly that entry. -/
theorem pop_spec {d : SubsetMap} {k : String} {v : Finset Nat}
    (hnd : KeysNodup d) (hmem : (k, v) ∈ d) :
    ∃ pre post, d = pre ++ (k, v) :: post ∧
      (∀ x ∈ pre, x.1 ≠ k) ∧ (∀ x ∈ post, x.1 ≠ k) ∧
      dictPop d k = .ok (v, pre ++ post) := by
  obtain ⟨pre, post, hdec, hpre, hpost⟩ := decomp_of_mem_nodup hnd hmem
  refine ⟨pre, post, hdec, hpre, hpost, ?_⟩
  rw [dictPop, hdec, find?_of_decomp pre k v post hpre,
    eraseP_of_decomp pre k v post hpre]

theorem keysNodup_of_middle {pre post : SubsetMap} {k : String} {v : Finset Nat}
    (hnd : KeysNodup (pre ++ (k, v) :: post)) : KeysNodup (pre ++ post) := by
  have hsub : (pre ++ post).Sublist (pre ++ (k, v) :: post) :=
    (List.sublist_cons_self (k, v) post).append_left pre
  exact List.Nodup.sublist (hsub.map Prod.fst) hnd

theorem uni_sub_rest {uni v : Finset Nat} {pre post : SubsetMap} {k : String}
    (hsub : uni ⊆ unionVals (pre ++ (k, v) :: post)) :
    uni \ v ⊆ unionVals (pre ++ post) := by
  intro x hx
  have hxu : x ∈ uni := (Finset.mem_sdiff.mp hx).1
  have hxv : x ∉ v := (Finset.mem_sdiff.mp hx).2
  obtain ⟨kv, hkv, hxkv⟩ := mem_unionVals.mp (hsub hxu)
  rcases List.mem_append.mp hkv with h | h
  · exact mem_unionVals.mpr ⟨kv, List.mem_append_left _ h, hxkv⟩
  · rcases List.mem_cons.mp h with h | h
    · rw [h] at hxkv; exact absurd hxkv hxv
    · exact mem_unionVals.mpr ⟨kv, List.mem_append_right _ h, hxkv⟩

/-- For a non-empty universe covered by the remaining subsets, the selection
step succeeds for either flag and returns a key of the dict whose subset
meets the universe in the maximal number of elements (in particular at least
one). -/
theorem winner_spec {uni : Finset Nat} {d : SubsetMap} (large : Bool)
    (hne : uni ≠ ∅) (hsub : uni ⊆ unionVals d) :
    ∃ k v, biggest_intersection uni d large = .ok k ∧ (k, v) ∈ d ∧
      (uni ∩ v).Nonempty ∧
      ∀ x ∈ d, (uni ∩ x.2).card ≤ (uni ∩ v).card := by
  obtain ⟨a, ha⟩ := Finset.nonempty_iff_ne_empty.mpr hne
  obtain ⟨kv0, hkv0, hakv0⟩ := mem_unionVals.mp (hsub ha)
  have hd : d ≠ [] := List.ne_nil_of_mem hkv0
  have hkv0card : 1 ≤ (uni ∩ kv0.2).card :=
    Finset.card_pos.mpr ⟨a, Finset.mem_inter.mpr ⟨ha, hakv0⟩⟩
  cases large with
  | false =>
    obtain ⟨pre, kv, post, hdec, hpre, hpost, hbi⟩ := bi_false_spec uni hd
    have hmax : ∀ x ∈ d, (uni ∩ x.2).card ≤ (uni ∩ kv.2).card := by
      intro x hx
      rw [hdec] at hx
      rcases List.mem_append.mp hx with h | h
      · have := hpre x h; omega
      · rcases List.mem_cons.mp h with h | h
        · rw [h]
        · have := hpost x h; omega
    refine ⟨kv.1, kv.2, hbi, by simpa using (hdec ▸ List.mem_append_right pre (List.mem_cons_self kv post)), ?_, hmax⟩
    have := hmax kv0 hkv0
    exact Finset.card_pos.mp (by omega)
  | true =>
    obtain ⟨M, pre, kv, post, hub, _, hfil, _, _, hbi⟩ := bi_true_spec uni hd
    have hkvmem : kv ∈ d.filter (fun x => ((uni ∩ x.2).card : Int) = M) := by
      rw [hfil]; exact List.mem_append_right pre (List.mem_cons_self kv post)
    have hkvd : kv ∈ d := (List.mem_filter.mp hkvmem).1
    have hkvM : ((uni ∩ kv.2).card : Int) = M := by
      have := (List.mem_filter.mp hkvmem).2
      simpa using this
    have hmax : ∀ x ∈ d, (uni ∩ x.2).card ≤ (uni ∩ kv.2).card := by
      intro x hx
      have := hub x hx
      omega
    refine ⟨kv.1, kv.2, hbi, by simpa using hkvd, ?_, hmax⟩
    have := hmax kv0 hkv0
    exact Finset.card_pos.mp (by omega)

/-- Main loop theorem: from any state where the keys are duplicate-free and
the remaining subsets cover the universe, `universe.card` fuel suffices: the
loop returns a solution, and the execution is a `SelectionRun`. -/
theorem loop_run (large : Bool) :
    ∀ (fuel : Nat) (uni : Finset Nat) (d : SubsetMap) (sol : Solution),
    KeysNodup d → uni ⊆ unionVals d → uni.card ≤ fuel →
    ∃ dF solF, greedyLoop large fuel uni d sol = .ok solF ∧
      SelectionRun large uni d sol dF solF := by
  intro fuel
  induction fuel with
  | zero =>
    intro uni d sol _ _ hcard
    have huni : uni = ∅ := Finset.card_eq_zero.mp (Nat.le_zero.mp hcard)
    subst huni
    exact ⟨d, sol, by rw [greedyLoop, if_pos rfl], .done d sol⟩
  | succ n ih =>
    intro uni d sol hnd hsub hcard
    by_cases hu : uni = ∅
    · subst hu
      exact ⟨d, sol, by rw [greedyLoop, if_pos rfl], .done d sol⟩
    · obtain ⟨k, v, hbi, hmem, hint, _⟩ := winner_spec large hu hsub
      obtain ⟨pre, post, hdec, _, _, hpop⟩ := pop_spec hnd hmem
      have hnd' : KeysNodup (pre ++ post) := keysNodup_of_middle (hdec ▸ hnd)
      have hsub' : uni \ v ⊆ unionVals (pre ++ post) := uni_sub_rest (hdec ▸ hsub)
      have hcard' : (uni \ v).card ≤ n := by
        have hlt : (uni \ v).card < uni.card := by
          apply Finset.card_lt_card
          rw [← Finset.sdiff_inter_self_left]
          exact Finset.sdiff_ssubset (Finset.inter_subset_left) hint
        omega
      obtain ⟨dF, solF, hloop, hrun⟩ :=
        ih (uni \ v) (pre ++ post) (sol ++ [(k, sortedList v)]) hnd' hsub' hcard'
      refine ⟨dF, solF, ?_,
        .step uni d sol k v (pre ++ post) dF solF hu hbi hpop hint hrun⟩
      rw [greedyLoop, if_neg hu, hbi]
      simp only [hpop]
      exact hloop

/-- Definitional unfolding of `dictPop`. -/
theorem dictPop_eq (d : SubsetMap) (k : String) :
    dictPop d k = match d.find? (fun kv => kv.1 == k) with
      | none => .error "KeyError"
      | some kv => .ok (kv.2, d.eraseP (fun kv => kv.1 == k)) := rfl

/-- A successful `dictPop` splits the dict around the first entry carrying
the key; no duplicate-key hypothesis is needed. -/
theorem dictPop_decomp : ∀ {d : SubsetMap} {k : String} {v : Finset Nat}
    {rest : SubsetMap}, dictPop d k = .ok (v, rest) →
    ∃ pre post, d = pre ++ (k, v) :: post ∧ rest = pre ++ post := by
  intro d
  induction d with
  | nil => intro k v rest h; simp [dictPop_eq, List.find?] at h
  | cons a t ih =>
    intro k v rest h
    rw [dictPop_eq] at h
    simp only [List.find?, List.eraseP_cons] at h
    cases hak : (a.1 == k) with
    | true =>
      rw [hak] at h
      simp only [cond_true] at h
      have hv : a.2 = v := congrArg Prod.fst (Except.ok.inj h)
      have hrest : rest = t := (congrArg Prod.snd (Except.ok.inj h)).symm
      have hk : a.1 = k := beq_iff_eq.mp hak
      refine ⟨[], t, ?_, by rw [hrest, List.nil_append]⟩
      rw [List.nil_append, ← hk, ← hv]
    | false =>
      rw [hak] at h
      simp only [cond_false] at h
      cases hfind : t.find? (fun kv => kv.1 == k) with
      | none => rw [hfind] at h; exact absurd h (by simp)
      | some kv1 =>
        rw [hfind] at h
        simp only [] at h
        have hv : kv1.2 = v := congrArg Prod.fst (Except.ok.inj h)
        have hrest : rest = a :: t.eraseP (fun kv => kv.1 == k) :=
          (congrArg Prod.snd (Except.ok.inj h)).symm
        have hpop : dictPop t k = .ok (v, t.eraseP (fun kv => kv.1 == k)) := by
          rw [dictPop_eq, hfind]
          simp only []
          rw [hv]
        obtain ⟨pre', post', hdec', hrest'⟩ := ih hpop
        exact ⟨a :: pre', post', by rw [hdec', List.cons_append],
          by rw [hrest, hrest', List.cons_append]⟩

theorem dictPop_mem {d : SubsetMap} {k : String} {v : Finset Nat}
    {rest : SubsetMap} (h : dictPop d k = .ok (v, rest)) :
    (k, v) ∈ d ∧ rest.Sublist d := by
  obtain ⟨pre, post, hdec, hrest⟩ := dictPop_decomp h
  refine ⟨hdec ▸ List.mem_append_right pre (List.mem_cons_self _ _), ?_⟩
  rw [hdec, hrest]
  exact (List.sublist_cons_self (k, v) post).append_left pre

/-! ## Invariants along a run -/

/-- Coverage invariant: if every element of the remaining subsets is either
already in the accumulated solution or still in the universe, then the final
solution covers exactly the accumulated part plus the universe. -/
theorem run_cover {large : Bool} {uni : Finset Nat} {d : SubsetMap}
    {sol : Solution} {dF : SubsetMap} {solF : Solution}
    (run : SelectionRun large uni d sol dF solF) :
    unionVals d ⊆ solUnion sol ∪ uni → solUnion solF = solUnion sol ∪ uni := by
  induction run with
  | done d sol => intro _; rw [Finset.union_empty]
  | step uni d sol k v rest dF solF hu hbi hpop hint hrec ih =>
    intro hinv
    have hrestsub := (dictPop_mem hpop).2
    have hkv : (k, v) ∈ d := (dictPop_mem hpop).1
    have hv : ∀ x ∈ v, x ∈ solUnion sol ∨ x ∈ uni := by
      intro x hx
      have : x ∈ unionVals d := mem_unionVals.mpr ⟨(k, v), hkv, hx⟩
      have := hinv this
      rcases Finset.mem_union.mp this with h | h
      · exact .inl h
      · exact .inr h
    have hinv' : unionVals rest ⊆
        solUnion (sol ++ [(k, sortedList v)]) ∪ (uni \ v) := by
      intro x hx
      obtain ⟨kv, hkvr, hxkv⟩ := mem_unionVals.mp hx
      have hxd : x ∈ unionVals d :=
        mem_unionVals.mpr ⟨kv, hrestsub.mem hkvr, hxkv⟩
      rcases Finset.mem_union.mp (hinv hxd) with h | h
      · apply Finset.mem_union_left
        rw [solUnion_append]
        exact Finset.mem_union_left _ h
      · by_cases hxv : x ∈ v
        · apply Finset.mem_union_left
          rw [solUnion_append]
          apply Finset.mem_union_right
          rw [sortedList_toFinset]
          exact hxv
        · exact Finset.mem_union_right _ (Finset.mem_sdiff.mpr ⟨h, hxv⟩)
    have hfin := ih hinv'
    rw [hfin, solUnion_append]
    ext x
    simp only [Finset.mem_union, Finset.mem_sdiff, List.mem_toFinset]
    have hmemv : ∀ y, y ∈ (sortedList v) ↔ y ∈ v := by
      intro y
      rw [← List.mem_toFinset, sortedList_toFinset]
    rw [hmemv]
    constructor
    · rintro (⟨h | h⟩ | ⟨h, _⟩)
      · exact .inl h
      · rcases hv x h with h' | h'
        · exact .inl h'
        · exact .inr h'
      · exact .inr h
    · rintro (h | h)
      · exact .inl (.inl h)
      · by_cases hxv : x ∈ v
        · exact .inl (.inr hxv)
        · exact .inr ⟨h, hxv⟩

/-- Provenance invariant: every entry of the final solution was either
already accumulated or is the ascending sorting of a subset still present in
the dict at that point. -/
theorem run_entries {large : Bool} {uni : Finset Nat} {d : SubsetMap}
    {sol : Solution} {dF : SubsetMap} {solF : Solution}
    (run : SelectionRun large uni d sol dF solF) :
    ∀ e ∈ solF, e ∈ sol ∨ ∃ v, (e.1, v) ∈ d ∧ e.2 = sortedList v := by
  induction run with
  | done d sol => intro e he; exact .inl he
  | step uni d sol k v rest dF solF hu hbi hpop hint hrec ih =>
    intro e he
    have hkv : (k, v) ∈ d := (dictPop_mem hpop).1
    have hrestsub := (dictPop_mem hpop).2
    rcases ih e he with h | ⟨v', hv', he2⟩
    · rcases List.mem_append.mp h with h | h
      · exact .inl h
      · rcases List.mem_cons.mp h with h | h
        · refine .inr ⟨v, ?_, by rw [h]⟩
          have : e.1 = k := by rw [h]
          rw [this]
          exact hkv
        · simp at h
    · exact .inr ⟨v', hrestsub.mem hv', he2⟩

/-- Key-conservation invariant: along a run, the concatenation of the
solution keys and the remaining-dict keys stays a permutation of what it
started as, and stays duplicate-free.  In particular the solution keys and
the remaining keys are disjoint at every point of the run. -/
theorem run_keys {large : Bool} {uni : Finset Nat} {d : SubsetMap}
    {sol : Solution} {dF : SubsetMap} {solF : Solution}
    (run : SelectionRun large uni d sol dF solF) :
    (sol.map Prod.fst ++ d.map Prod.fst).Nodup →
      (solF.map Prod.fst ++ dF.map Prod.fst).Perm
        (sol.map Prod.fst ++ d.map Prod.fst) ∧
      (solF.map Prod.fst ++ dF.map Prod.fst).Nodup := by
  induction run with
  | done d sol => intro h; exact ⟨List.Perm.refl _, h⟩
  | step uni d sol k v rest dF solF hu hbi hpop hint hrec ih =>
    intro h
    obtain ⟨pre, post, hdec, hrest⟩ := dictPop_decomp hpop
    have hperm : ((sol ++ [(k, sortedList v)]).map Prod.fst ++
        rest.map Prod.fst).Perm (sol.map Prod.fst ++ d.map Prod.fst) := by
      rw [hdec, hrest]
      simp only [List.map_append, List.map_cons, List.map_nil]
      rw [List.append_assoc]
      apply List.Perm.append_left
      calc ([k] ++ (pre.map Prod.fst ++ post.map Prod.fst)).Perm
            (pre.map Prod.fst ++ k :: post.map Prod.fst) := by
            rw [List.singleton_append]
            exact List.perm_middle.symm
      _ = _ := rfl
    have hnd' := hperm.nodup_iff.mpr h
    obtain ⟨hp, hn⟩ := ih hnd'
    exact ⟨hp.trans hperm, hn⟩

/-! ## Main-level glue -/

theorem main_solve_eq {d : SubsetMap} (large : Bool) (hne : d ≠ []) :
    main_solve d large =
      greedyLoop large (unionVals d).card (unionVals d) d [] := by
  unfold main_solve
  rw [union_ok hne]

/-- For any valid input, `main_solve` succeeds and its execution is a
`SelectionRun` from the full universe. -/
theorem main_run (large : Bool) {d : SubsetMap} (h : ValidInput d) :
    ∃ dF sol, main_solve d large = .ok sol ∧
      SelectionRun large (unionVals d) d [] dF sol := by
  obtain ⟨hne, hnd⟩ := h
  obtain ⟨dF, solF, hloop, hrun⟩ :=
    loop_run large (unionVals d).card (unionVals d) d [] hnd
      (fun _ hx => hx) le_rfl
  exact ⟨dF, solF, by rw [main_solve_eq large hne]; exact hloop, hrun⟩

/-! ## The claims -/

/-- C1: for every valid input mapping and both values of the `preferLarger`
flag, the union of all element sequences in the returned solution equals the
union of all sets in the original input mapping. -/
theorem C1_full_cover (large : Bool) (d : SubsetMap) (h : ValidInput d) :
    ∃ sol, main_solve d large = .ok sol ∧ solUnion sol = unionVals d := by
  obtain ⟨dF, sol, hok, hrun⟩ := main_run large h
  refine ⟨sol, hok, ?_⟩
  have h0 : solUnion ([] : Solution) = ∅ := rfl
  have hcov := run_cover hrun (by rw [h0, Finset.empty_union])
  rw [hcov, h0, Finset.empty_union]

theorem C1_full_cover_witness :
    ValidInput exInput ∧
      ∃ sol, main_solve exInput true = .ok sol ∧
        solUnion sol = unionVals exInput :=
  ⟨by decide, C1_full_cover true exInput (by decide)⟩

/-- C3: when `preferLarger` is false, the selected name is the first name of
the scan achieving the maximal intersection size with the universe; every
earlier name has strictly smaller intersection and later names at most tie,
so later ties never replace the winner. -/
theorem C3_first_max_wins (uni : Finset Nat) (d : SubsetMap) (h : d ≠ []) :
    ∃ pre kv post, d = pre ++ kv :: post ∧
      (∀ x ∈ pre, ((uni ∩ x.2).card : Int) < ((uni ∩ kv.2).card : Int)) ∧
      (∀ x ∈ post, ((uni ∩ x.2).card : Int) ≤ ((uni ∩ kv.2).card : Int)) ∧
      biggest_intersection uni d false = .ok kv.1 :=
  bi_false_spec uni h

theorem C3_first_max_wins_witness :
    exPair ≠ [] ∧
      ∃ pre kv post, exPair = pre ++ kv :: post ∧
        (∀ x ∈ pre, ((({1, 2} : Finset Nat) ∩ x.2).card : Int) <
          ((({1, 2} : Finset Nat) ∩ kv.2).card : Int)) ∧
        (∀ x ∈ post, ((({1, 2} : Finset Nat) ∩ x.2).card : Int) ≤
          ((({1, 2} : Finset Nat) ∩ kv.2).card : Int)) ∧
        biggest_intersection {1, 2} exPair false = .ok kv.1 :=
  ⟨by decide, C3_first_max_wins {1, 2} exPair (by decide)⟩

/-- C4: the loop performs no selection step once the universe is empty (for
any dict and accumulator, the loop returns at once on an empty universe),
and for every valid input the run of the engine is a `SelectionRun`, each of
whose selection steps happens on a non-empty universe and selects a subset
with non-empty intersection with the then-remaining universe. -/
theorem C4_progress (large : Bool) (d : SubsetMap) (h : ValidInput d) :
    (∀ (fuel : Nat) (d' : SubsetMap) (sol : Solution),
      greedyLoop large fuel ∅ d' sol = .ok sol) ∧
    ∃ dF sol, main_solve d large = .ok sol ∧
      SelectionRun large (unionVals d) d [] dF sol := by
  refine ⟨?_, main_run large h⟩
  intro fuel d' sol
  cases fuel with
  | zero => rw [greedyLoop, if_pos rfl]
  | succ n => rw [greedyLoop, if_pos rfl]

theorem C4_progress_witness :
    ValidInput exInput ∧
      ((∀ (fuel : Nat) (d' : SubsetMap) (sol : Solution),
        greedyLoop false fuel ∅ d' sol = .ok sol) ∧
      ∃ dF sol, main_solve exInput false = .ok sol ∧
        SelectionRun false (unionVals exInput) exInput [] dF sol) :=
  ⟨by decide, C4_progress false exInput (by decide)⟩

/-- C5: for every valid input (including inputs containing empty subsets)
and both flag values, the greedy loop terminates with a solution: the
`universe.card` iteration bound suffices and no error (in particular not the
`"nontermination"` fuel-exhaustion marker) is reached. -/
theorem C5_termination (large : Bool) (d : SubsetMap) (h : ValidInput d) :
    ∃ sol, main_solve d large = .ok sol := by
  obtain ⟨dF, sol, hok, _⟩ := main_run large h
  exact ⟨sol, hok⟩

theorem C5_termination_witness :
    ValidInput exWithEmpty ∧ ∃ sol, main_solve exWithEmpty true = .ok sol :=
  ⟨by decide, C5_termination true exWithEmpty (by decide)⟩

/-- C6: the engine is deterministic — equal input mappings (same entries in
the same iteration order) and equal flags produce equal solutions. -/
theorem C6_deterministic (d₁ d₂ : SubsetMap) (l₁ l₂ : Bool)
    (hd : d₁ = d₂) (hl : l₁ = l₂) : main_solve d₁ l₁ = main_solve d₂ l₂ := by
  rw [hd, hl]

theorem C6_deterministic_witness :
    main_solve exInput true = main_solve exInput true :=
  C6_deterministic exInput exInput true true rfl rfl

/-- C9: calling the engine on an empty subsets mapping fails immediately in
`union` (Python raises `IndexError` at `set_list[0]`) before any loop
iteration — it does not loop and does not return a solution. -/
theorem C9_empty_fails_fast :
    union ([] : SubsetMap) = .error "IndexError: list index out of range" ∧
    ∀ large : Bool,
      main_solve [] large = .error "IndexError: list index out of range" :=
  ⟨rfl, fun _ => rfl⟩

/-- C2, counterexample: on universe `{1, 2}` with subsets `A = {1}` and
`B = {2}`, both names tie at intersection size 1 and tie at original size 1.
The claim's rule (last candidate of the scan, here `B`, formalized by
`specC2winner`) disagrees with the code, which keeps the first candidate
(`A`) because `largest_valued_key` replaces only on strictly larger size. -/
theorem C2_counterexample :
    biggest_intersection {1, 2} exPair true = .ok "A" ∧
    specC2winner {1, 2} exPair = some "B" ∧ ("A" : String) ≠ "B" :=
  ⟨by decide, by decide, by decide⟩

/-- C2 (amended): when `preferLarger` is true, the selected name is, among
all names tied at the maximal intersection size `M`, the one of largest
original subset cardinality; when several such candidates tie on original
size, the winner is the candidate encountered *first* during the scan
(earlier candidates are strictly smaller, later ones at most tie). -/
theorem C2_secondary_tiebreak (uni : Finset Nat) (d : SubsetMap)
    (h : d ≠ []) :
    ∃ M pre kv post,
      (∀ x ∈ d, ((uni ∩ x.2).card : Int) ≤ M) ∧
      (∃ x ∈ d, ((uni ∩ x.2).card : Int) = M) ∧
      d.filter (fun x => ((uni ∩ x.2).card : Int) = M) = pre ++ kv :: post ∧
      (∀ x ∈ pre, (x.2.card : Int) < (kv.2.card : Int)) ∧
      (∀ x ∈ post, (x.2.card : Int) ≤ (kv.2.card : Int)) ∧
      biggest_intersection uni d true = .ok kv.1 :=
  bi_true_spec uni h

theorem C2_secondary_tiebreak_witness :
    exPair ≠ [] ∧
      ∃ M pre kv post,
        (∀ x ∈ exPair, ((({1, 2} : Finset Nat) ∩ x.2).card : Int) ≤ M) ∧
        (∃ x ∈ exPair, ((({1, 2} : Finset Nat) ∩ x.2).card : Int) = M) ∧
        exPair.filter
          (fun x => ((({1, 2} : Finset Nat) ∩ x.2).card : Int) = M) =
            pre ++ kv :: post ∧
        (∀ x ∈ pre, (x.2.card : Int) < (kv.2.card : Int)) ∧
        (∀ x ∈ post, (x.2.card : Int) ≤ (kv.2.card : Int)) ∧
        biggest_intersection {1, 2} exPair true = .ok kv.1 :=
  ⟨by decide, C2_secondary_tiebreak {1, 2} exPair (by decide)⟩

/-- C7: every sequence of the returned solution is the ascending, duplicate
free listing of exactly the elements of the identically-named original
subset. -/
theorem C7_subset_fidelity (large : Bool) (d : SubsetMap) (sol : Solution)
    (h : ValidInput d) (hrun : main_solve d large = .ok sol) :
    ∀ e ∈ sol, ∃ v, (e.1, v) ∈ d ∧ e.2.toFinset = v ∧
      List.Sorted (· ≤ ·) e.2 ∧ e.2.Nodup := by
  obtain ⟨dF, sol', hok, hrun'⟩ := main_run large h
  rw [hok] at hrun
  have hsol : sol' = sol := Except.ok.inj hrun
  subst hsol
  intro e he
  rcases run_entries hrun' e he with habs | ⟨v, hv, he2⟩
  · simp at habs
  · exact ⟨v, hv, by rw [he2, sortedList_toFinset],
      by rw [he2]; exact sortedList_sorted_le v,
      by rw [he2]; exact sortedList_nodup v⟩

theorem C7_subset_fidelity_witness :
    ValidInput exInput ∧ main_solve exInput false = .ok exSolution ∧
      ∀ e ∈ exSolution, ∃ v, (e.1, v) ∈ exInput ∧ e.2.toFinset = v ∧
        List.Sorted (· ≤ ·) e.2 ∧ e.2.Nodup :=
  ⟨by decide, by decide,
    C7_subset_fidelity false exInput exSolution (by decide) (by decide)⟩

/-! ## Validator lemmas -/

theorem toFinset_card_eq_length_iff {xs : List Nat} :
    xs.toFinset.card = xs.length ↔ xs.Nodup := by
  rw [List.card_toFinset]
  constructor
  · intro h
    rw [← List.dedup_eq_self]
    exact (List.dedup_sublist xs).eq_of_length h
  · intro h
    rw [List.dedup_eq_self.mpr h]

theorem check_entries_error_of_dup :
    ∀ (entries : List (String × JValue)) (k : String) (xs : List Nat),
      (k, JValue.jlist xs) ∈ entries → ¬xs.Nodup →
      ∃ e, check_entries entries = .error e := by
  intro entries
  induction entries with
  | nil => intro k xs hmem _; simp at hmem
  | cons a rest ih =>
    intro k xs hmem hdup
    obtain ⟨k', v'⟩ := a
    cases v' with
    | jother => exact ⟨_, rfl⟩
    | jlist ys =>
      rw [check_entries]
      by_cases hlen : ys.length = ys.toFinset.card
      · rw [if_pos hlen]
        have hmem' : (k, JValue.jlist xs) ∈ rest := by
          rcases List.mem_cons.mp hmem with h | h
          · exfalso
            have hxy : xs = ys := JValue.jlist.inj (congrArg Prod.snd h)
            exact hdup (hxy ▸ toFinset_card_eq_length_iff.mp hlen.symm)
          · exact h
        obtain ⟨e, he⟩ := ih k xs hmem' hdup
        exact ⟨e, by rw [he]⟩
      · rw [if_neg hlen]
        exact ⟨_, rfl⟩

theorem check_entries_ok_shape :
    ∀ (entries : List (String × JValue)) (r : List (String × Finset Nat)),
      check_entries entries = .ok r →
      List.Forall₂ (fun ent res => ∃ xs, ent.2 = JValue.jlist xs ∧
        res = (ent.1, xs.toFinset)) entries r := by
  intro entries
  induction entries with
  | nil =>
    intro r h
    rw [check_entries] at h
    rw [← Except.ok.inj h]
    exact List.Forall₂.nil
  | cons a rest ih =>
    intro r h
    obtain ⟨k', v'⟩ := a
    cases v' with
    | jother => rw [check_entries] at h; exact absurd h (by simp)
    | jlist ys =>
      rw [check_entries] at h
      by_cases hlen : ys.length = ys.toFinset.card
      · rw [if_pos hlen] at h
        cases hre : check_entries rest with
        | error e => rw [hre] at h; exact absurd h (by simp)
        | ok r' =>
          rw [hre] at h
          simp only [] at h
          rw [← Except.ok.inj h]
          exact List.Forall₂.cons ⟨ys, rfl, rfl⟩ (ih r' hre)
      · rw [if_neg hlen] at h
        exact absurd h (by simp)

/-- C8: the validator rejects (with an error) a JSON array at top level, a
scalar at top level, any mapping containing a duplicated element in one of
its lists, and the empty mapping; every mapping it accepts is returned
entry-by-entry with each list converted to its set of elements. -/
theorem C8_validator :
    (∀ elems : List Nat, ∃ e, check_input (JTop.jarr elems) = .error e) ∧
    (∃ e, check_input JTop.jscalar = .error e) ∧
    (∀ (entries : List (String × JValue)) (k : String) (xs : List Nat),
      (k, JValue.jlist xs) ∈ entries → ¬xs.Nodup →
      ∃ e, check_input (JTop.jdict entries) = .error e) ∧
    check_input (JTop.jdict []) = .error "Input is empty." ∧
    (∀ (entries : List (String × JValue)) (r : List (String × Finset Nat)),
      check_input (JTop.jdict entries) = .ok r →
      List.Forall₂ (fun ent res => ∃ xs, ent.2 = JValue.jlist xs ∧
        res = (ent.1, xs.toFinset)) entries r) := by
  refine ⟨?_, ⟨_, rfl⟩, ?_, rfl, ?_⟩
  · intro elems
    by_cases h : elems.length = 0
    · exact ⟨_, by rw [check_input, if_pos h]⟩
    · exact ⟨_, by rw [check_input, if_neg h]⟩
  · intro entries k xs hmem hdup
    have hne : entries.length ≠ 0 := by
      cases entries
      · simp at hmem
      · simp
    obtain ⟨e, he⟩ := check_entries_error_of_dup entries k xs hmem hdup
    exact ⟨e, by rw [check_input, if_neg hne, he]⟩
  · intro entries r h
    rw [check_input] at h
    by_cases hl : entries.length = 0
    · rw [if_pos hl] at h
      exact absurd h (by simp)
    · rw [if_neg hl] at h
      exact check_entries_ok_shape entries r h

theorem C8_validator_witness :
    (∃ e, check_input (JTop.jarr [1, 2]) = .error e) ∧
    (∃ e, check_input (JTop.jdict [("A", JValue.jlist [1, 1])]) = .error e) ∧
    List.Forall₂ (fun ent res => ∃ xs, ent.2 = JValue.jlist xs ∧
        res = (ent.1, xs.toFinset))
      [("A", JValue.jlist [1, 2])] [("A", ({1, 2} : Finset Nat))] :=
  ⟨C8_validator.1 [1, 2],
    C8_validator.2.2.1 [("A", JValue.jlist [1, 1])] "A" [1, 1]
      (by decide) (by decide),
    C8_validator.2.2.2.2 [("A", JValue.jlist [1, 2])]
      [("A", ({1, 2} : Finset Nat))] (by decide)⟩

/-- C10: along every run of the engine the concatenation of the solution
keys and the remaining-dict keys remains a duplicate-free permutation of its
initial value (so the two key sets stay disjoint and their union is the
original name set); consequently the returned solution names each input name
at most once and names nothing outside the input. -/
theorem C10_key_partition (large : Bool) (d : SubsetMap) (sol : Solution)
    (h : ValidInput d) (hrun : main_solve d large = .ok sol) :
    ((sol.map Prod.fst).Nodup ∧
      ∀ k ∈ sol.map Prod.fst, k ∈ d.map Prod.fst) ∧
    ∀ (uni' : Finset Nat) (d' : SubsetMap) (sol₀ : Solution)
      (dF : SubsetMap) (solF : Solution),
      SelectionRun large uni' d' sol₀ dF solF →
      (sol₀.map Prod.fst ++ d'.map Prod.fst).Nodup →
      (solF.map Prod.fst ++ dF.map Prod.fst).Perm
        (sol₀.map Prod.fst ++ d'.map Prod.fst) ∧
      (solF.map Prod.fst ++ dF.map Prod.fst).Nodup := by
  refine ⟨?_, fun _ _ _ _ _ run hnd => run_keys run hnd⟩
  obtain ⟨dF, sol', hok, hrun'⟩ := main_run large h
  rw [hok] at hrun
  have hsol : sol' = sol := Except.ok.inj hrun
  subst hsol
  have hnd0 : (([] : Solution).map Prod.fst ++ d.map Prod.fst).Nodup := by
    simp only [List.map_nil, List.nil_append]
    exact h.2
  obtain ⟨hperm, hnodup⟩ := run_keys hrun' hnd0
  simp only [List.map_nil, List.nil_append] at hperm
  constructor
  · exact hnodup.of_append_left
  · intro k hk
    exact hperm.subset (List.mem_append_left _ hk)

theorem C10_key_partition_witness :
    ValidInput exInput ∧ main_solve exInput true = .ok exSolution ∧
      (((exSolution.map Prod.fst).Nodup ∧
        ∀ k ∈ exSolution.map Prod.fst, k ∈ exInput.map Prod.fst) ∧
      ∀ (uni' : Finset Nat) (d' : SubsetMap) (sol₀ : Solution)
        (dF : SubsetMap) (solF : Solution),
        SelectionRun true uni' d' sol₀ dF solF →
        (sol₀.map Prod.fst ++ d'.map Prod.fst).Nodup →
        (solF.map Prod.fst ++ dF.map Prod.fst).Perm
          (sol₀.map Prod.fst ++ d'.map Prod.fst) ∧
        (solF.map Prod.fst ++ dF.map Prod.fst).Nodup) :=
  ⟨by decide, by decide,
    C10_key_partition true exInput exSolution (by decide) (by decide)⟩

end SetCover
